import Mathlib

set_option maxHeartbeats 1000000

/- Verification development for standards_scraper.py.  The program text is
modelled over List Char; every Python function used by the claims is
translated into an executable Lean function below. -/

/-- Whitespace characters recognised by the Python regex class \s on str
patterns and by str.isspace / str.strip: the ASCII whitespace characters
together with the Unicode space characters, in particular the non-breaking
space U+00A0 that clean_text mentions explicitly. -/
def wsChar (c : Char) : Bool :=
  c.toNat = 0x09 || c.toNat = 0x0a || c.toNat = 0x0b || c.toNat = 0x0c ||
  c.toNat = 0x0d || c.toNat = 0x1c || c.toNat = 0x1d || c.toNat = 0x1e ||
  c.toNat = 0x1f || c.toNat = 0x20 || c.toNat = 0x85 || c.toNat = 0xa0 ||
  c.toNat = 0x1680 || (0x2000 ≤ c.toNat && c.toNat ≤ 0x200a) ||
  c.toNat = 0x2028 || c.toNat = 0x2029 || c.toNat = 0x202f ||
  c.toNat = 0x205f || c.toNat = 0x3000

/-- re.sub with pattern \s+ and replacement a single space: the Boolean flag
records whether the current position is inside a whitespace run whose
replacement space has already been emitted. -/
def collapseWsAux : Bool → List Char → List Char
  | _, [] => []
  | inRun, c :: rest =>
    if wsChar c then
      if inRun then collapseWsAux true rest
      else ' ' :: collapseWsAux true rest
    else c :: collapseWsAux false rest

def collapseWs (l : List Char) : List Char := collapseWsAux false l

/-- text.replace of the one-character needle U+00A0 by a space. -/
def replaceNbsp (l : List Char) : List Char :=
  l.map (fun c => if c = '\xa0' then ' ' else c)

/-- Python str.strip with no argument: remove leading and trailing
whitespace. -/
def pyStrip (l : List Char) : List Char :=
  (((l.dropWhile wsChar).reverse).dropWhile wsChar).reverse

/-- clean_text from the source: collapse each whitespace run to one space,
replace non-breaking spaces, then strip the ends. -/
def clean_text (l : List Char) : List Char :=
  pyStrip (replaceNbsp (collapseWs l))

/-- Python str.split with no separator argument: the maximal runs of
non-whitespace characters, in order. -/
def pySplitAux : List Char → List Char → List (List Char)
  | acc, [] => if acc = [] then [] else [acc.reverse]
  | acc, c :: rest =>
    if wsChar c then
      if acc = [] then pySplitAux [] rest
      else acc.reverse :: pySplitAux [] rest
    else pySplitAux (c :: acc) rest

def pySplit (l : List Char) : List (List Char) := pySplitAux [] l

/-- Join a list of strings with single spaces between consecutive items. -/
def spaceJoin : List (List Char) → List Char
  | [] => []
  | [t] => t
  | t :: t2 :: ts => t ++ ' ' :: spaceJoin (t2 :: ts)

/- ---------- lemmas for the normalization theory ---------- -/

lemma collapseWsAux_true_eq (l : List Char) :
    collapseWsAux true l = collapseWsAux false (l.dropWhile wsChar) := by
  induction l with
  | nil => rfl
  | cons c rest ih =>
    by_cases h : wsChar c
    · simp [collapseWsAux, h, List.dropWhile, ih]
    · simp [collapseWsAux, h, List.dropWhile]

lemma pySplitAux_nil_dropWhile (l : List Char) :
    pySplitAux [] l = pySplitAux [] (l.dropWhile wsChar) := by
  induction l with
  | nil => rfl
  | cons c rest ih =>
    by_cases h : wsChar c
    · simp [pySplitAux, h, List.dropWhile, ih]
    · simp [pySplitAux, h, List.dropWhile]

lemma collapseWsAux_false_append (t r : List Char)
    (ht : ∀ c ∈ t, wsChar c = false) :
    collapseWsAux false (t ++ r) = t ++ collapseWsAux false r := by
  induction t with
  | nil => rfl
  | cons c t' ih =>
    have hc : wsChar c = false := ht c (by simp)
    simp [collapseWsAux, hc, ih (fun c hc2 => ht c (by simp [hc2]))]

lemma pySplitAux_append_run (t : List Char) (acc r : List Char)
    (ht : ∀ c ∈ t, wsChar c = false) :
    pySplitAux acc (t ++ r) = pySplitAux (t.reverse ++ acc) r := by
  induction t generalizing acc with
  | nil => simp
  | cons c t' ih =>
    have hc : wsChar c = false := ht c (by simp)
    simp only [List.cons_append, pySplitAux, hc, Bool.false_eq_true,
      if_false, List.reverse_cons, List.append_assoc, List.singleton_append]
    exact ih (c :: acc) (fun c hc2 => ht c (by simp [hc2]))

lemma pySplitAux_ne_nil (l : List Char) (acc : List Char) (h : acc ≠ []) :
    pySplitAux acc l ≠ [] := by
  induction l generalizing acc with
  | nil => simp [pySplitAux, h]
  | cons c rest ih =>
    by_cases hc : wsChar c
    · simp [pySplitAux, hc, h]
    · simpa [pySplitAux, hc] using ih (c :: acc) (by simp)

lemma dropWhile_append_of_ne_nil {p : Char → Bool} {xs ys : List Char}
    (h : xs.dropWhile p ≠ []) :
    (xs ++ ys).dropWhile p = xs.dropWhile p ++ ys := by
  induction xs with
  | nil => simp [List.dropWhile] at h
  | cons c rest ih =>
    by_cases hc : p c
    · simp only [List.dropWhile, hc] at h ⊢
      exact ih h
    · simp [List.dropWhile, hc]

lemma dropWhile_eq_nil_forall {p : Char → Bool} {l : List Char}
    (h : l.dropWhile p = []) : ∀ c ∈ l, p c = true := by
  induction l with
  | nil => simp
  | cons c rest ih =>
    by_cases hc : p c
    · simp only [List.dropWhile, hc] at h
      intro d hd
      rcases List.mem_cons.1 hd with hd | hd
      · simpa [hd] using hc
      · exact ih h d hd
    · simp [List.dropWhile, hc] at h

/-- The right-strip half of pyStrip. -/
def stripRight (l : List Char) : List Char :=
  ((l.reverse).dropWhile wsChar).reverse

lemma pyStrip_eq (l : List Char) :
    pyStrip l = stripRight (l.dropWhile wsChar) := rfl

lemma stripRight_append (a b : List Char) (c : Char) (hc : c ∈ b)
    (hcw : wsChar c = false) :
    stripRight (a ++ b) = a ++ stripRight b := by
  have hb : b.reverse.dropWhile wsChar ≠ [] := by
    intro hnil
    have := dropWhile_eq_nil_forall hnil c (by simpa using hc)
    simp [hcw] at this
  unfold stripRight
  rw [List.reverse_append, dropWhile_append_of_ne_nil hb, List.reverse_append,
    List.reverse_reverse]

lemma dropWhile_all_false {p : Char → Bool} {l : List Char}
    (h : ∀ c ∈ l, p c = false) : l.dropWhile p = l := by
  induction l with
  | nil => rfl
  | cons c rest ih =>
    have hc : p c = false := h c (by simp)
    simp [List.dropWhile, hc, ih (fun d hd => h d (by simp [hd]))]

lemma stripRight_append_ws (t : List Char) (c : Char) (hc : wsChar c = true) :
    stripRight (t ++ [c]) = stripRight t := by
  unfold stripRight
  rw [List.reverse_append]
  simp [List.dropWhile, hc]

lemma stripRight_all_nonws (t : List Char) (ht : ∀ c ∈ t, wsChar c = false) :
    stripRight t = t := by
  unfold stripRight
  rw [dropWhile_all_false (fun c hc => ht c (by simpa using hc)),
    List.reverse_reverse]

lemma mem_takeWhile_nonws {l : List Char} {c : Char}
    (hc : c ∈ l.takeWhile (fun d => !wsChar d)) : wsChar c = false := by
  have := List.mem_takeWhile_imp hc
  simpa using this

lemma collapseWsAux_mem (b : Bool) (l : List Char) :
    ∀ c ∈ collapseWsAux b l, c = ' ' ∨ wsChar c = false := by
  induction l generalizing b with
  | nil => simp [collapseWsAux]
  | cons c rest ih =>
    intro d hd
    by_cases hc : wsChar c
    · cases b with
      | true =>
        simp only [collapseWsAux, hc, if_true] at hd
        exact ih true d hd
      | false =>
        simp only [collapseWsAux, hc, if_true] at hd
        rcases List.mem_cons.1 hd with hd | hd
        · exact Or.inl hd
        · exact ih true d hd
    · simp only [collapseWsAux, hc, Bool.false_eq_true, if_false] at hd
      rcases List.mem_cons.1 hd with hd | hd
      · subst hd
        exact Or.inr (by simpa using hc)
      · exact ih false d hd

lemma replaceNbsp_collapseWs (l : List Char) :
    replaceNbsp (collapseWs l) = collapseWs l := by
  unfold replaceNbsp
  have : ∀ c ∈ collapseWs l, (if c = '\xa0' then ' ' else c) = c := by
    intro c hc
    rcases collapseWsAux_mem false l c hc with h | h
    · subst h; rfl
    · have : c ≠ '\xa0' := by
        intro he
        subst he
        simp [wsChar] at h
      simp [this]
  calc (collapseWs l).map (fun c => if c = '\xa0' then ' ' else c)
      = (collapseWs l).map id := List.map_congr_left this
    _ = collapseWs l := List.map_id _

lemma pySplitAux_shape (l : List Char) :
    ∀ acc, (∀ c ∈ acc, wsChar c = false) →
      ∀ t ∈ pySplitAux acc l, t ≠ [] ∧ ∀ c ∈ t, wsChar c = false := by
  induction l with
  | nil =>
    intro acc hacc t ht
    by_cases h : acc = []
    · simp [pySplitAux, h] at ht
    · simp only [pySplitAux, h, if_false] at ht
      rcases List.mem_singleton.1 ht with rfl
      refine ⟨by simpa using h, fun c hc => hacc c (by simpa using hc)⟩
  | cons c rest ih =>
    intro acc hacc t ht
    by_cases hc : wsChar c
    · by_cases h : acc = []
      · simp only [pySplitAux, hc, if_true, h, if_true] at ht
        exact ih [] (by simp) t ht
      · simp only [pySplitAux, hc, if_true, h, if_false] at ht
        rcases List.mem_cons.1 ht with rfl | ht
        · exact ⟨by simpa using h, fun d hd => hacc d (by simpa using hd)⟩
        · exact ih [] (by simp) t ht
    · simp only [pySplitAux, hc, Bool.false_eq_true, if_false] at ht
      refine ih (c :: acc) ?_ t ht
      intro d hd
      rcases List.mem_cons.1 hd with rfl | hd
      · simpa using hc
      · exact hacc d hd

lemma length_dropWhile_le (p : Char → Bool) (l : List Char) :
    (l.dropWhile p).length ≤ l.length := by
  induction l with
  | nil => simp [List.dropWhile]
  | cons c rest ih =>
    by_cases hc : p c
    · simp only [List.dropWhile, hc]
      exact Nat.le_trans ih (by simp)
    · simp [List.dropWhile, hc]

lemma strip_collapse_join : ∀ (n : Nat) (l : List Char), l.length ≤ n →
    pyStrip (collapseWsAux false l) = spaceJoin (pySplitAux [] l) := by
  intro n
  induction n with
  | zero =>
    intro l hl
    have : l = [] := List.length_eq_zero.1 (Nat.le_zero.1 hl)
    subst this
    rfl
  | succ n ih =>
    intro l hl
    match l with
    | [] => rfl
    | c :: r =>
      by_cases hc : wsChar c
      · -- leading whitespace: the emitted space is stripped again
        have h1 : collapseWsAux false (c :: r) =
            ' ' :: collapseWsAux false (r.dropWhile wsChar) := by
          simp [collapseWsAux, hc, collapseWsAux_true_eq]
        have h2 : pySplitAux [] (c :: r) =
            pySplitAux [] (r.dropWhile wsChar) := by
          simp only [pySplitAux, hc, if_true]
          exact pySplitAux_nil_dropWhile r
        have hlen : (r.dropWhile wsChar).length ≤ n := by
          have h3 := length_dropWhile_le wsChar r
          have hr : r.length ≤ n := by simpa using Nat.le_of_succ_le_succ hl
          omega
        rw [h1, h2, ← ih _ hlen]
        unfold pyStrip
        simp [List.dropWhile, wsChar]
      · -- leading non-whitespace: peel off the first token
        have hsplit : c :: r = (c :: r).takeWhile (fun d => !wsChar d) ++
            (c :: r).dropWhile (fun d => !wsChar d) :=
          (List.takeWhile_append_dropWhile _ _).symm
        generalize hts : (c :: r).takeWhile (fun d => !wsChar d) = t at hsplit
        have htnonws : ∀ d ∈ t, wsChar d = false := by
          intro d hd
          rw [← hts] at hd
          exact mem_takeWhile_nonws hd
        have htne : t ≠ [] := by
          rw [← hts]
          simp [List.takeWhile, hc]
        have hheadrr : ∀ d rr1, (c :: r).dropWhile (fun d => !wsChar d) = d :: rr1 →
            wsChar d = true := by
          intro d rr1 hdr
          have h4 := List.head?_dropWhile_not (fun d => !wsChar d) (c :: r)
          rw [hdr] at h4
          simpa using h4
        rcases hrr : (c :: r).dropWhile (fun d => !wsChar d) with _ | ⟨d, rr1⟩
        · rw [hrr, List.append_nil] at hsplit
          rw [hsplit]
          have h4 : collapseWsAux false t = t := by
            have := collapseWsAux_false_append t [] htnonws
            simpa [collapseWsAux] using this
          have h5 : pySplitAux ([] : List Char) t = [t] := by
            have := pySplitAux_append_run t [] [] htnonws
            rw [List.append_nil] at this
            rw [this]
            have h6 : t.reverse ≠ [] := by simpa using htne
            simp [pySplitAux, h6]
          rw [h4, h5]
          have h7 : pyStrip t = t := by
            rw [pyStrip_eq, dropWhile_all_false htnonws, stripRight_all_nonws t htnonws]
          rw [h7]
          rfl
        · have hd : wsChar d = true := hheadrr d rr1 hrr
          rw [hrr] at hsplit
          have hco : collapseWsAux false (c :: r) =
              t ++ ' ' :: collapseWsAux false (rr1.dropWhile wsChar) := by
            rw [hsplit, collapseWsAux_false_append t _ htnonws]
            simp [collapseWsAux, hd, collapseWsAux_true_eq]
          have hsp : pySplitAux [] (c :: r) =
              t :: pySplitAux [] (rr1.dropWhile wsChar) := by
            conv_lhs => rw [hsplit]
            rw [pySplitAux_append_run t [] _ htnonws]
            have h6 : t.reverse ≠ [] := by simpa using htne
            simp only [List.append_nil, pySplitAux, hd, if_true, h6, if_false,
              List.reverse_reverse]
            rw [pySplitAux_nil_dropWhile]
          have hlen2 : (rr1.dropWhile wsChar).length ≤ n := by
            have h8 : (rr1.dropWhile wsChar).length ≤ rr1.length :=
              length_dropWhile_le wsChar rr1
            have h9 : (t ++ d :: rr1).length ≤ n + 1 := hsplit ▸ hl
            have h10 : t.length ≥ 1 := by
              cases t with
              | nil => exact absurd rfl htne
              | cons a t2 => simp
            simp only [List.length_append, List.length_cons] at h9
            omega
          have ihr := ih _ hlen2
          rw [hco, hsp]
          rcases hrr2 : rr1.dropWhile wsChar with _ | ⟨e, rr3⟩
          · show pyStrip (t ++ [' ']) = spaceJoin [t]
            have hdw := @dropWhile_append_of_ne_nil wsChar t [' ']
              (by rw [dropWhile_all_false htnonws]; exact htne)
            rw [dropWhile_all_false htnonws] at hdw
            rw [pyStrip_eq, hdw, stripRight_append_ws t ' ' (by decide),
              stripRight_all_nonws t htnonws]
            rfl
          · have he : wsChar e = false := by
              have h11 := List.head?_dropWhile_not wsChar rr1
              rw [hrr2] at h11
              simpa using h11
            rw [hrr2] at ihr
            have hX : collapseWsAux false (e :: rr3) =
                e :: collapseWsAux false rr3 := by
              simp [collapseWsAux, he]
            have hXmem : e ∈ collapseWsAux false (e :: rr3) := by rw [hX]; simp
            have hstrip : pyStrip (t ++ ' ' :: collapseWsAux false (e :: rr3)) =
                t ++ ' ' :: pyStrip (collapseWsAux false (e :: rr3)) := by
              have hdw := @dropWhile_append_of_ne_nil wsChar t
                (' ' :: collapseWsAux false (e :: rr3))
                (by rw [dropWhile_all_false htnonws]; exact htne)
              rw [dropWhile_all_false htnonws] at hdw
              have hdwX : (collapseWsAux false (e :: rr3)).dropWhile wsChar =
                  collapseWsAux false (e :: rr3) := by
                rw [hX]
                simp [List.dropWhile, he]
              rw [pyStrip_eq, hdw, pyStrip_eq, hdwX]
              have h12 : t ++ ' ' :: collapseWsAux false (e :: rr3) =
                  (t ++ [' ']) ++ collapseWsAux false (e :: rr3) := by simp
              rw [h12, stripRight_append (t ++ [' ']) _ e hXmem he]
              simp
            have hsne : pySplitAux ([] : List Char) (e :: rr3) ≠ [] := by
              simp only [pySplitAux, he, Bool.false_eq_true, if_false]
              exact pySplitAux_ne_nil rr3 [e] (by simp)
            rcases hu : pySplitAux ([] : List Char) (e :: rr3) with _ | ⟨u, us⟩
            · exact absurd hu hsne
            · rw [hstrip, ihr, hu]
              rfl

lemma clean_text_eq_join (l : List Char) :
    clean_text l = spaceJoin (pySplit l) := by
  unfold clean_text pySplit
  rw [replaceNbsp_collapseWs]
  exact strip_collapse_join l.length l (Nat.le_refl _)

/-- C6: two inputs that agree on their sequence of non-whitespace runs are
normalized by clean_text to the same output; that output is the runs joined
by single ordinary spaces, each run nonempty and whitespace-free, so every
whitespace run of the input becomes one space and the ends are stripped. -/
theorem c6_normalization_whitespace_invariant (l₁ l₂ : List Char)
    (h : pySplit l₁ = pySplit l₂) :
    clean_text l₁ = clean_text l₂ ∧
    clean_text l₁ = spaceJoin (pySplit l₁) ∧
    ∀ t ∈ pySplit l₁, t ≠ [] ∧ ∀ c ∈ t, wsChar c = false := by
  refine ⟨by rw [clean_text_eq_join, clean_text_eq_join, h],
    clean_text_eq_join l₁, ?_⟩
  exact pySplitAux_shape l₁ [] (by simp)

/-- Witness for C6 at concrete whitespace-variant inputs. -/
theorem c6_witness :
    clean_text ("  a\t\nb \xa0 c ".data) = clean_text ("a b  c".data) :=
  (c6_normalization_whitespace_invariant ("  a\t\nb \xa0 c ".data)
    ("a b  c".data) (by decide)).1

/- ---------- field extractor: the two regex searches ---------- -/

/-- ASCII lower-casing, the case folding relevant to re.IGNORECASE on the
letters appearing in the two patterns. -/
def lowerChar (c : Char) : Char :=
  if 'A' ≤ c && c ≤ 'Z' then Char.ofNat (c.toNat + 32) else c

/-- Match a literal pattern case-insensitively at the head of the input,
returning the rest of the input. -/
def matchLitCI : List Char → List Char → Option (List Char)
  | [], l => some l
  | _ :: _, [] => none
  | p :: ps, c :: cs =>
    if lowerChar p = lowerChar c then matchLitCI ps cs else none

/-- ASCII decimal digits: the only digit characters the scraped documents
contain (the Python class \d also admits other Unicode digits, which none
of the claims exercise). -/
def isDigitChar (c : Char) : Bool := '0' ≤ c && c ≤ '9'

/-- One token of the weight-class alternation
  \d+(?:\.\d+)?kg | \+\d+kg  (case-insensitive).
Backtracking inside a token never helps the regex engine: giving back
digits of \d+ or \.\d+, or dropping the optional fraction, exposes a digit
or a dot at a place where the literal kg is required, so the greedy
left-to-right parse below is exactly the regex behaviour.  The two
alternatives are distinguished by their disjoint first characters. -/
def parseWeightTok (l : List Char) : Option (List Char) :=
  match l with
  | [] => none
  | c :: r =>
    if c = '+' then
      if r.takeWhile isDigitChar = [] then none
      else matchLitCI ['k', 'g'] (r.dropWhile isDigitChar)
    else if (c :: r).takeWhile isDigitChar = [] then none
    else
      match (c :: r).dropWhile isDigitChar with
      | [] => none
      | d :: r2 =>
        if d = '.' then
          if r2.takeWhile isDigitChar = [] then none
          else matchLitCI ['k', 'g'] (r2.dropWhile isDigitChar)
        else matchLitCI ['k', 'g'] (d :: r2)

lemma length_dropWhile_cons_lt (p : Char → Bool) (c : Char) (r : List Char)
    (h : p c = true) : ((c :: r).dropWhile p).length < (c :: r).length := by
  simp only [List.dropWhile, h]
  exact Nat.lt_succ_of_le (length_dropWhile_le p r)

lemma matchLitCI_length {p l r : List Char} (h : matchLitCI p l = some r) :
    r.length ≤ l.length := by
  induction p generalizing l with
  | nil =>
    simp only [matchLitCI] at h
    cases h
    exact Nat.le_refl _
  | cons c ps ih =>
    match l with
    | [] => simp [matchLitCI] at h
    | d :: ds =>
      simp only [matchLitCI] at h
      by_cases he : lowerChar c = lowerChar d
      · rw [if_pos he] at h
        exact Nat.le_trans (ih h) (by simp)
      · rw [if_neg he] at h
        cases h

lemma parseWeightTok_length {l r : List Char} (h : parseWeightTok l = some r) :
    r.length ≤ l.length := by
  match l with
  | [] => simp [parseWeightTok] at h
  | c :: t =>
    simp only [parseWeightTok] at h
    by_cases hplus : c = '+'
    · rw [if_pos hplus] at h
      by_cases hd : t.takeWhile isDigitChar = []
      · rw [if_pos hd] at h; cases h
      · rw [if_neg hd] at h
        have h1 := matchLitCI_length h
        have h2 := length_dropWhile_le isDigitChar t
        simp only [List.length_cons]
        omega
    · rw [if_neg hplus] at h
      by_cases hd : (c :: t).takeWhile isDigitChar = []
      · rw [if_pos hd] at h; cases h
      · rw [if_neg hd] at h
        have hlen := length_dropWhile_le isDigitChar (c :: t)
        rcases hdw : (c :: t).dropWhile isDigitChar with _ | ⟨d, r2⟩ <;>
          rw [hdw] at h hlen
        · cases h
        · replace h : (if d = '.' then
              if r2.takeWhile isDigitChar = [] then none
              else matchLitCI ['k', 'g'] (r2.dropWhile isDigitChar)
            else matchLitCI ['k', 'g'] (d :: r2)) = some r := h
          by_cases hdot : d = '.'
          · rw [if_pos hdot] at h
            by_cases hf : r2.takeWhile isDigitChar = []
            · rw [if_pos hf] at h; cases h
            · rw [if_neg hf] at h
              have h1 := matchLitCI_length h
              have h2 := length_dropWhile_le isDigitChar r2
              simp only [List.length_cons] at hlen ⊢
              omega
          · rw [if_neg hdot] at h
            exact Nat.le_trans (matchLitCI_length h) hlen

/-- The star (?:\s+(?:weight token))* is greedy and nothing follows it in
the pattern, so it simply repeats while an iteration parses.  Each
successful iteration consumes at least one character, so fuel equal to the
input length never runs out (certified by weightStarFuel_stable below). -/
def weightStarFuel : Nat → List Char → List Char
  | 0, l => l
  | n + 1, l =>
    if l.takeWhile wsChar = [] then l
    else
      match parseWeightTok (l.dropWhile wsChar) with
      | none => l
      | some rest => weightStarFuel n rest

def weightStar (l : List Char) : List Char := weightStarFuel l.length l

lemma takeWhile_ne_nil_head {p : Char → Bool} {c : Char} {t : List Char}
    (h : (c :: t).takeWhile p ≠ []) : p c = true := by
  by_cases hc : p c
  · exact hc
  · simp [List.takeWhile, hc] at h

lemma weightStarFuel_nil (n : Nat) : weightStarFuel n [] = [] := by
  cases n <;> simp [weightStarFuel, List.takeWhile]

lemma weightStarFuel_stable : ∀ (n m : Nat) (l : List Char),
    l.length ≤ n → l.length ≤ m → weightStarFuel n l = weightStarFuel m l := by
  intro n
  induction n with
  | zero =>
    intro m l hn _
    have : l = [] := List.length_eq_zero.1 (Nat.le_zero.1 hn)
    subst this
    rw [weightStarFuel_nil, weightStarFuel_nil]
  | succ n ih =>
    intro m l hn hm
    match l with
    | [] => rw [weightStarFuel_nil, weightStarFuel_nil]
    | c :: t =>
      match m with
      | 0 => simp at hm
      | m + 1 =>
        simp only [weightStarFuel]
        by_cases h1 : (c :: t).takeWhile wsChar = []
        · simp [h1]
        · rw [if_neg h1, if_neg h1]
          rcases h2 : parseWeightTok ((c :: t).dropWhile wsChar) with _ | rest
          · rfl
          · have hc : wsChar c = true := takeWhile_ne_nil_head h1
            have hlt : rest.length < (c :: t).length :=
              Nat.lt_of_le_of_lt (parseWeightTok_length h2)
                (length_dropWhile_cons_lt wsChar c t hc)
            simp only [List.length_cons] at hlt hn hm
            show weightStarFuel n rest = weightStarFuel m rest
            exact ih m rest (by omega) (by omega)

/-- One token of the total pattern, \d+(?:kg)? with the kg taken greedily
(case-insensitively).  Giving the optional kg or trailing digits back can
only expose a digit, k or g where the pattern next requires whitespace or
the end, so this greedy parse is exactly the regex behaviour. -/
def parseTotTok (l : List Char) : Option (List Char) :=
  if l.takeWhile isDigitChar = [] then none
  else
    match matchLitCI ['k', 'g'] (l.dropWhile isDigitChar) with
    | some r => some r
    | none => some (l.dropWhile isDigitChar)

lemma parseTotTok_length_lt {l r : List Char} (h : parseTotTok l = some r) :
    r.length < l.length := by
  unfold parseTotTok at h
  by_cases hd : l.takeWhile isDigitChar = []
  · rw [if_pos hd] at h; cases h
  · rw [if_neg hd] at h
    match l with
    | [] => simp [List.takeWhile] at hd
    | c :: t =>
      have hc : isDigitChar c = true := takeWhile_ne_nil_head hd
      have hlt := length_dropWhile_cons_lt isDigitChar c t hc
      rcases hm : matchLitCI ['k', 'g'] ((c :: t).dropWhile isDigitChar)
        with _ | r2 <;> rw [hm] at h <;> cases h
      · exact hlt
      · exact Nat.lt_of_le_of_lt (matchLitCI_length hm) hlt

/-- After a complete total token, decide where the captured group ends.
The group is followed in the pattern by (?:\s|$).  A some result is the
rest of the input after the group; a none result tells the caller that the
last iteration it performed must be dropped (the only backtracking step
that can expose whitespace).  Fuel strictly exceeding the input length
never runs out (certified by totalTailFuel_stable below). -/
def totalTailFuel : Nat → List Char → Option (List Char)
  | 0, _ => none
  | n + 1, l =>
    match l with
    | [] => some []
    | c :: _ =>
      if wsChar c then
        match parseTotTok (l.dropWhile wsChar) with
        | none => some l
        | some r => some ((totalTailFuel n r).getD l)
      else none

def totalTail (l : List Char) : Option (List Char) :=
  totalTailFuel (l.length + 1) l

lemma totalTailFuel_stable : ∀ (n m : Nat) (l : List Char),
    l.length < n → l.length < m → totalTailFuel n l = totalTailFuel m l := by
  intro n
  induction n with
  | zero => intro m l hn; omega
  | succ n ih =>
    intro m l hn hm
    match m with
    | 0 => omega
    | m + 1 =>
      match l with
      | [] => rfl
      | c :: t =>
        show (if wsChar c then
            match parseTotTok ((c :: t).dropWhile wsChar) with
            | none => some (c :: t)
            | some r => some ((totalTailFuel n r).getD (c :: t))
          else none) =
          (if wsChar c then
            match parseTotTok ((c :: t).dropWhile wsChar) with
            | none => some (c :: t)
            | some r => some ((totalTailFuel m r).getD (c :: t))
          else none)
        by_cases hc : wsChar c
        · rw [if_pos hc, if_pos hc]
          rcases h2 : parseTotTok ((c :: t).dropWhile wsChar) with _ | r
          · rfl
          · have hlt : r.length < (c :: t).length :=
              Nat.lt_of_lt_of_le (parseTotTok_length_lt h2)
                (length_dropWhile_le wsChar (c :: t))
            simp only [List.length_cons] at hlt hn hm
            show some ((totalTailFuel n r).getD (c :: t)) =
              some ((totalTailFuel m r).getD (c :: t))
            rw [ih m r (by omega) (by omega)]
        · rw [if_neg hc, if_neg hc]

/- literals of the two patterns and the [:\s]* skip -/

def weightClassLit : List Char := "Weight class".data
def classLit : List Char := "Class".data
def totalLit : List Char := "Total".data

def colonOrWs (c : Char) : Bool := c = ':' || wsChar c

/-- Try the weight pattern at exactly this position, returning group 1.
The group starts after (?:Weight class|Class)[:\s]* (the characters of
[:\s] are disjoint from the first character of a token, so the greedy skip
never needs to give characters back) and ends after the greedy star. -/
def matchWeightAt (l : List Char) : Option (List Char) :=
  let after :=
    match matchLitCI weightClassLit l with
    | some r => some r
    | none => matchLitCI classLit l
  match after with
  | none => none
  | some r1 =>
    let g0 := r1.dropWhile colonOrWs
    match parseWeightTok g0 with
    | none => none
    | some r2 => some (g0.take (g0.length - (weightStar r2).length))

/-- Try the total pattern at exactly this position, returning group 1. -/
def matchTotalAt (l : List Char) : Option (List Char) :=
  match matchLitCI totalLit l with
  | none => none
  | some r1 =>
    let g0 := r1.dropWhile colonOrWs
    match parseTotTok g0 with
    | none => none
    | some r2 =>
      match totalTail r2 with
      | none => none
      | some rest => some (g0.take (g0.length - rest.length))

/-- re.search: try the match at every position from the left, first
success wins. -/
def searchCapture (m : List Char → Option (List Char)) : List Char → Option (List Char)
  | [] => m []
  | c :: r =>
    match m (c :: r) with
    | some g => some g
    | none => searchCapture m r

/-- Python str.replace of the needle kg by the empty string: remove the
(case-sensitive) occurrences of kg, scanning left to right. -/
def replaceKg : List Char → List Char
  | [] => []
  | 'k' :: 'g' :: r => replaceKg r
  | c :: r => c :: replaceKg r

/-- extract_section_data from the source: search for each of the two
patterns; if either fails, return two empty lists, otherwise split each
captured group on whitespace (stripping the kg suffix of the totals). -/
def extract_section_data (sec : List Char) : List (List Char) × List (List Char) :=
  match searchCapture matchWeightAt sec, searchCapture matchTotalAt sec with
  | some wg, some tg =>
    (((pySplit wg).filter (fun w => !(pyStrip w).isEmpty)).map pyStrip,
     ((pySplit tg).filter (fun t => !(pyStrip t).isEmpty)).map
       (fun t => pyStrip (replaceKg t)))
  | _, _ => ([], [])

/- ---------- section splitter and record assembly ---------- -/

/-- One row of the data list built by scrape_weightlifting_standards. -/
structure StandardRecord where
  ageGroup : List Char
  weightClass : List Char
  weightStandard : List Char
deriving DecidableEq

/-- The fixed six age-group labels, in the order of the source list. -/
def ageGroupsList : List (List Char) :=
  ["Youth Women".data, "Youth Men".data, "Junior Women".data,
   "Junior Men".data, "Senior Women".data, "Senior Men".data]

def labelColon (g : List Char) : List Char := g ++ [':']

/-- Python str.find: index of the first occurrence of the pattern, scanning
from the start of the text; none models the -1 result. -/
def findSubAux (pat : List Char) : List Char → Nat → Option Nat
  | [], i => if pat.isPrefixOf [] then some i else none
  | c :: r, i =>
    if pat.isPrefixOf (c :: r) then some i else findSubAux pat r (i + 1)

def findSub (pat l : List Char) : Option Nat := findSubAux pat l 0

/-- The end of the current section: the find result for the first
later-listed label that occurs in the text (searching the whole text), or
the text length when none of them occurs. -/
def nextStart (text : List Char) : List (List Char) → Nat
  | [] => text.length
  | g :: gs =>
    match findSub (labelColon g) text with
    | some p => p
    | none => nextStart text gs

/-- The section substring for the i-th age group: text[start:end] (Python
slicing, which yields the empty string when end is not after start). -/
def sectionFor (text : List Char) (i : Nat) : Option (List Char) :=
  match ageGroupsList[i]? with
  | none => none
  | some g =>
    match findSub (labelColon g) text with
    | none => none
    | some s =>
      some ((text.take (nextStart text (ageGroupsList.drop (i + 1)))).drop s)

/-- The records one section contributes: the positional zip of weight
classes and totals when their counts agree, nothing otherwise. -/
def sectionRecords (g : List Char) (sec : List Char) : List StandardRecord :=
  let wt := extract_section_data sec
  if wt.1.length = wt.2.length then
    (wt.1.zip wt.2).map (fun p => ⟨g, p.1, p.2⟩)
  else []

def groupRecordsAt (text : List Char) (i : Nat) : List StandardRecord :=
  match ageGroupsList[i]?, sectionFor text i with
  | some g, some sec => sectionRecords g sec
  | _, _ => []

/-- The loop body of scrape_weightlifting_standards applied to the cleaned
text: every group contributes its records in list order. -/
def scrapeFromText (text : List Char) : List StandardRecord :=
  ((List.range ageGroupsList.length).map (fun i => groupRecordsAt text i)).flatten

/-- scrape_weightlifting_standards on the text extracted from the PDF:
clean the text, then split and extract (the network fetch and the PDF page
concatenation happen before this point and are outside the model). -/
def scrape_weightlifting_standards (raw : List Char) : List StandardRecord :=
  scrapeFromText (clean_text raw)

lemma nextStart_spec (text : List Char) (gs : List (List Char)) :
    (∃ gsa g gsb, gs = gsa ++ g :: gsb ∧
      (∀ g2 ∈ gsa, findSub (labelColon g2) text = none) ∧
      findSub (labelColon g) text = some (nextStart text gs)) ∨
    (nextStart text gs = text.length ∧
      ∀ g2 ∈ gs, findSub (labelColon g2) text = none) := by
  induction gs with
  | nil => exact Or.inr ⟨rfl, by simp⟩
  | cons g gs ih =>
    rcases hf : findSub (labelColon g) text with _ | p
    · have hns : nextStart text (g :: gs) = nextStart text gs := by
        simp [nextStart, hf]
      rcases ih with ⟨gsa, g1, gsb, heq, hnone, hfound⟩ | ⟨hlen, hnone⟩
      · refine Or.inl ⟨g :: gsa, g1, gsb, by rw [heq]; simp, ?_, by rw [hns]; exact hfound⟩
        intro g2 hg2
        rcases List.mem_cons.1 hg2 with rfl | hg2
        · exact hf
        · exact hnone g2 hg2
      · refine Or.inr ⟨by rw [hns]; exact hlen, ?_⟩
        intro g2 hg2
        rcases List.mem_cons.1 hg2 with rfl | hg2
        · exact hf
        · exact hnone g2 hg2
    · refine Or.inl ⟨[], g, gs, rfl, by simp, ?_⟩
      simp [nextStart, hf]

/-- C2: when the i-th label occurs (at first occurrence s), its section is
the slice of the cleaned text from s up to a boundary e, where e is the
find result of the first later-listed label that occurs anywhere in the
text (labels in between that are absent are skipped), or the text length
when no later label occurs at all. -/
theorem c2_section_boundaries (text : List Char) (i : Nat) (g : List Char)
    (s : Nat) (hg : ageGroupsList[i]? = some g)
    (hs : findSub (labelColon g) text = some s) :
    ∃ e, sectionFor text i = some ((text.take e).drop s) ∧
      ((∃ gsa g2 gsb, ageGroupsList.drop (i + 1) = gsa ++ g2 :: gsb ∧
          (∀ g3 ∈ gsa, findSub (labelColon g3) text = none) ∧
          findSub (labelColon g2) text = some e) ∨
        (e = text.length ∧
          ∀ g2 ∈ ageGroupsList.drop (i + 1), findSub (labelColon g2) text = none)) := by
  refine ⟨nextStart text (ageGroupsList.drop (i + 1)), ?_, ?_⟩
  · simp [sectionFor, hg, hs]
  · rcases nextStart_spec text (ageGroupsList.drop (i + 1)) with
      ⟨gsa, g2, gsb, heq, hnone, hfound⟩ | ⟨hlen, hnone⟩
    · exact Or.inl ⟨gsa, g2, gsb, heq, hnone, hfound⟩
    · exact Or.inr ⟨hlen, hnone⟩

/-- Witness for C2: a text containing Senior Women then Senior Men; the
Senior Women section is exactly the substring between the two label
starts. -/
theorem c2_witness :
    ∃ e, sectionFor ("Senior Women: a Senior Men: b".data) 4 =
        some ((("Senior Women: a Senior Men: b".data).take e).drop 0) ∧
      ((∃ gsa g2 gsb, ageGroupsList.drop 5 = gsa ++ g2 :: gsb ∧
          (∀ g3 ∈ gsa, findSub (labelColon g3) ("Senior Women: a Senior Men: b".data) = none) ∧
          findSub (labelColon g2) ("Senior Women: a Senior Men: b".data) = some e) ∨
        (e = ("Senior Women: a Senior Men: b".data).length ∧
          ∀ g2 ∈ ageGroupsList.drop 5,
            findSub (labelColon g2) ("Senior Women: a Senior Men: b".data) = none)) :=
  c2_section_boundaries ("Senior Women: a Senior Men: b".data) 4
    ("Senior Women".data) 0 (by decide) (by decide)

/-- C5: field extraction on the spec's concrete section text returns the
weight classes with the kg suffix retained and the totals with the kg
suffix stripped. -/
theorem c5_concrete_extraction :
    extract_section_data
        ("Senior Men: Weight class: 60kg 65kg Total: 120 130kg".data) =
      (["60kg".data, "65kg".data], ["120".data, "130".data]) := by
  decide

/-- C1 (counterexample): on a section whose patterns both match but yield
2 weight classes and 3 totals, extraction returns those mismatched
nonempty lists, not two empty lists as the claim states. -/
theorem c1_counterexample :
    extract_section_data ("Weight class: 60kg 65kg Total: 120 130 140".data) =
      (["60kg".data, "65kg".data], ["120".data, "130".data, "140".data]) ∧
    extract_section_data ("Weight class: 60kg 65kg Total: 120 130 140".data) ≠
      (([] : List (List Char)), ([] : List (List Char))) := by
  decide

/-- C1 (amended): when the extracted lists have different lengths the
scraper emits zero records for that section; the extraction itself returns
the mismatched lists unchanged (illustrated on the 2-versus-3 input). -/
theorem c1_mismatch_zero_records :
    (∀ (g sec : List Char),
      (extract_section_data sec).1.length ≠ (extract_section_data sec).2.length →
      sectionRecords g sec = []) ∧
    extract_section_data ("Weight class: 60kg 65kg Total: 120 130 140".data) =
      (["60kg".data, "65kg".data], ["120".data, "130".data, "140".data]) := by
  constructor
  · intro g sec h
    unfold sectionRecords
    simp [h]
  · decide

/-- Witness for C1 at the 2-versus-3 input. -/
theorem c1_witness :
    sectionRecords ("Senior Men".data)
      ("Weight class: 60kg 65kg Total: 120 130 140".data) = [] :=
  c1_mismatch_zero_records.1 ("Senior Men".data)
    ("Weight class: 60kg 65kg Total: 120 130 140".data) (by decide)

/-- C10 (counterexample): a text where the later-listed label Senior Men
precedes the current label Junior Women, yet the first later-listed label
that is found (Junior Men) lies after it, so the Junior Women section is
nonempty and contributes one record, contradicting the claim. -/
theorem c10_counterexample :
    ageGroupsList[2]? = some ("Junior Women".data) ∧
    ageGroupsList[5]? = some ("Senior Men".data) ∧
    findSub (labelColon ("Junior Women".data))
      ("Senior Men: x Junior Women: Weight class: 55kg Total: 100 Junior Men: y".data) =
      some 14 ∧
    findSub (labelColon ("Senior Men".data))
      ("Senior Men: x Junior Women: Weight class: 55kg Total: 100 Junior Men: y".data) =
      some 0 ∧
    groupRecordsAt
      ("Senior Men: x Junior Women: Weight class: 55kg Total: 100 Junior Men: y".data)
      2 =
      [⟨"Junior Women".data, "55kg".data, "100".data⟩] := by
  decide

/-- C10 (amended): the boundary search scans from the start of the whole
text, so whenever the boundary (the find result of the first later-listed
label that is found) is at or before the current label's first occurrence,
the section is the empty string and the group yields zero records. -/
theorem c10_stale_boundary_empty_section (text : List Char) (i : Nat)
    (g : List Char) (s : Nat) (hg : ageGroupsList[i]? = some g)
    (hs : findSub (labelColon g) text = some s)
    (hle : nextStart text (ageGroupsList.drop (i + 1)) ≤ s) :
    sectionFor text i = some [] ∧ groupRecordsAt text i = [] := by
  have hslice :
      (text.take (nextStart text (ageGroupsList.drop (i + 1)))).drop s = [] := by
    apply List.drop_eq_nil_of_le
    exact le_trans (List.length_take_le _ _) hle
  have hsec : sectionFor text i = some [] := by
    simp [sectionFor, hg, hs, hslice]
  have hrec : sectionRecords g [] = [] := by
    have he : extract_section_data [] = (([] : List (List Char)), ([] : List (List Char))) := rfl
    simp [sectionRecords, he]
  refine ⟨hsec, ?_⟩
  simp [groupRecordsAt, hg, hsec, hrec]

/-- Witness for C10 at a text whose Senior Women label follows the Senior
Men label. -/
theorem c10_witness :
    sectionFor ("Senior Men: w Senior Women: x".data) 4 = some [] ∧
    groupRecordsAt ("Senior Men: w Senior Women: x".data) 4 = [] :=
  c10_stale_boundary_empty_section ("Senior Men: w Senior Women: x".data) 4
    ("Senior Women".data) 14 (by decide) (by decide) (by decide)

/- ---------- merger / formatter ---------- -/

/-- Python substring containment: needle in haystack. -/
def containsSub (pat l : List Char) : Bool := (findSub pat l).isSome

/-- entry["Age Group"].split()[0]; none models the IndexError on a
whitespace-only string. -/
def firstWord (l : List Char) : Option (List Char) := (pySplit l).head?

/-- "Female" if "Women" in ageGroup else "Male". -/
def genderOf (ag : List Char) : List Char :=
  if containsSub ("Women".data) ag then "Female".data else "Male".data

/-- The gendered weight class f-string "{gender} {weight class}". -/
def gwcOf (e : StandardRecord) : List Char :=
  genderOf e.ageGroup ++ ' ' :: e.weightClass

def natFromDigits (ds : List Char) : Nat :=
  ds.foldl (fun acc c => 10 * acc + (c.toNat - 48)) 0

/-- int(float(s)) for the decimal forms [sign]digits, [sign]digits.,
[sign]digits.digits and [sign].digits that the scraper produces: the float
value truncated toward zero is the signed integer part.  Exponent forms,
inf/nan, digit underscores and float rounding above 2 to the 53rd are
outside the model and none is returned for every other string, as Python
raises ValueError there. -/
def pyParseStandard (l : List Char) : Option Int :=
  let s := pyStrip l
  let signed : Int × List Char :=
    match s with
    | '+' :: r => (1, r)
    | '-' :: r => (-1, r)
    | _ => (1, s)
  let ip := signed.2.takeWhile isDigitChar
  match signed.2.dropWhile isDigitChar with
  | [] => if ip = [] then none else some (signed.1 * natFromDigits ip)
  | c :: r2 =>
    if c = '.' then
      let fp := r2.takeWhile isDigitChar
      if r2.dropWhile isDigitChar ≠ [] then none
      else if ip = [] ∧ fp = [] then none
      else some (signed.1 * natFromDigits ip)
    else none

/-- The leaf object with the two qualifying standards. -/
structure Leaf where
  a : Int
  b : Int
deriving DecidableEq

/-- The inner dict of one age bracket: insertion-ordered association list
from gendered weight class to leaf.  Python dicts preserve insertion
order, which the association list mirrors. -/
abbrev InnerTable := List (List Char × Leaf)

/-- age_group_data: the outer dict with the three fixed bracket keys. -/
abbrev AgeTable := List (List Char × InnerTable)

def emptyGrouped : AgeTable :=
  [("Youth".data, []), ("Junior".data, []), ("Senior".data, [])]

def dGet {α : Type} (d : List (List Char × α)) (k : List Char) : Option α :=
  (d.find? (fun p => p.1 == k)).map (fun p => p.2)

def dSet {α : Type} (d : List (List Char × α)) (k : List Char) (v : α) :
    List (List Char × α) :=
  d.map (fun p => if p.1 == k then (p.1, v) else p)

def alContains (al : InnerTable) (k : List Char) : Bool :=
  al.any (fun p => p.1 == k)

/-- One A-standard record: create the entry with b = 0 unless the key is
already present (first record wins); none models the uncaught KeyError or
ValueError on a malformed record. -/
def procA (d : AgeTable) (e : StandardRecord) : Option AgeTable :=
  match firstWord e.ageGroup with
  | none => none
  | some w =>
    match pyParseStandard e.weightStandard with
    | none => none
    | some n =>
      match dGet d w with
      | none => none
      | some al =>
        if alContains al (gwcOf e) then some d
        else some (dSet d w (al ++ [(gwcOf e, ⟨n, 0⟩)]))

/-- One B-standard record: overwrite the b field of an existing entry
(last record wins) or create a new entry with a = 0. -/
def procB (d : AgeTable) (e : StandardRecord) : Option AgeTable :=
  match firstWord e.ageGroup with
  | none => none
  | some w =>
    match pyParseStandard e.weightStandard with
    | none => none
    | some n =>
      match dGet d w with
      | none => none
      | some al =>
        if alContains al (gwcOf e) then
          some (dSet d w
            (al.map (fun p => if p.1 == gwcOf e then (p.1, ⟨p.2.a, n⟩) else p)))
        else some (dSet d w (al ++ [(gwcOf e, ⟨0, n⟩)]))

/-- The two grouping loops of format_as_typescript: all A records first,
then all B records. -/
def buildGrouped (aData bData : List StandardRecord) : Option AgeTable :=
  match aData.foldlM procA emptyGrouped with
  | none => none
  | some d => bData.foldlM procB d

/- ---------- weight_class_sort_key and the sorted output ---------- -/

/-- The second component of the sort key: float(weight) represented
exactly as num / 10 ^ scale, or the infinity used for + classes. -/
inductive WKey
  | fin (num : Int) (scale : Nat)
  | inf
deriving DecidableEq

/-- weight_class.split(' ', 1): split at the first space character. -/
def splitOnceSpace (l : List Char) : Option (List Char × List Char) :=
  match l.dropWhile (fun c => c != ' ') with
  | [] => none
  | _ :: r => some (l.takeWhile (fun c => c != ' '), r)

/-- float(s) for the same decimal forms as pyParseStandard, represented
exactly as a scaled integer. -/
def pyFloatScaled (l : List Char) : Option (Int × Nat) :=
  let s := pyStrip l
  let signed : Int × List Char :=
    match s with
    | '+' :: r => (1, r)
    | '-' :: r => (-1, r)
    | _ => (1, s)
  let ip := signed.2.takeWhile isDigitChar
  match signed.2.dropWhile isDigitChar with
  | [] => if ip = [] then none else some (signed.1 * natFromDigits ip, 0)
  | c :: r2 =>
    if c = '.' then
      let fp := r2.takeWhile isDigitChar
      if r2.dropWhile isDigitChar ≠ [] then none
      else if ip = [] ∧ fp = [] then none
      else some (signed.1 * natFromDigits (ip ++ fp), fp.length)
    else none

/-- weight_class_sort_key from the source: the gender string paired with
the numeric weight, + classes mapped to infinity; none models the uncaught
ValueError on a key without a space or with an unparseable weight. -/
def weight_class_sort_key (wc : List Char) : Option (List Char × WKey) :=
  match splitOnceSpace wc with
  | none => none
  | some gw =>
    if gw.2.head? = some '+' then some (gw.1, WKey.inf)
    else
      match pyFloatScaled (replaceKg gw.2) with
      | none => none
      | some ns => some (gw.1, WKey.fin ns.1 ns.2)

/-- Strict lexicographic order on strings by code point, Python's str
comparison. -/
def listCharLt : List Char → List Char → Bool
  | [], [] => false
  | [], _ :: _ => true
  | _ :: _, [] => false
  | a :: l1, b :: l2 =>
    if a.toNat < b.toNat then true
    else if b.toNat < a.toNat then false
    else listCharLt l1 l2

/-- Order on the numeric component: num1/10^k1 ≤ num2/10^k2 compared by
cross multiplication, with infinity above everything. -/
def wkeyLe : WKey → WKey → Bool
  | WKey.fin n1 k1, WKey.fin n2 k2 =>
    n1 * (10 : Int) ^ k2 ≤ n2 * (10 : Int) ^ k1
  | WKey.fin _ _, WKey.inf => true
  | WKey.inf, WKey.fin _ _ => false
  | WKey.inf, WKey.inf => true

/-- The non-strict order induced by comparing Python key tuples. -/
def sortKeyLe (k1 k2 : List Char × WKey) : Bool :=
  listCharLt k1.1 k2.1 || (k1.1 == k2.1 && wkeyLe k1.2 k2.2)

/-- Decorate each inner-table entry with its sort key; none models the
exception sorted raises when the key function raises on some element. -/
def decorated (al : InnerTable) :
    Option (List ((List Char × Leaf) × (List Char × WKey))) :=
  al.mapM (fun e => (weight_class_sort_key e.1).map (fun k => (e, k)))

def keyRel (x y : (List Char × Leaf) × (List Char × WKey)) : Prop :=
  sortKeyLe x.2 y.2 = true

instance : DecidableRel keyRel := fun x y => by
  unfold keyRel
  infer_instance

/-- sorted(weights.items(), key=weight_class_sort_key): Python's sort is
stable with respect to non-strict key comparison, as is insertion sort, and
a stable sort of a list under a total preorder is unique, so the two
agree. -/
def sortInner (al : InnerTable) : Option InnerTable :=
  match decorated al with
  | none => none
  | some d => some ((List.insertionSort keyRel d).map (fun x => x.1))

/-- str of a Python int. -/
def intStr (i : Int) : List Char :=
  if i < 0 then '-' :: Nat.toDigits 10 i.natAbs else Nat.toDigits 10 i.natAbs

/-- The f-string for one entry line of the output. -/
def entryLine (wc : List Char) (s : Leaf) : List Char :=
  "        \"".data ++ wc ++ "\": \x7b qualifyingStandards: \x7b a: ".data ++
    intStr s.a ++ ", b: ".data ++ intStr s.b ++ " \x7d \x7d,\n".data

/-- One age-bracket block of the output, entries in sorted order. -/
def bracketBlock (name : List Char) (al : InnerTable) : Option (List Char) :=
  match sortInner al with
  | none => none
  | some es =>
    some ("    ".data ++ name ++ ": \x7b\n".data ++
      (es.map (fun e => entryLine e.1 e.2)).flatten ++ "    \x7d,\n".data)

/-- format_as_typescript from the source: group the two tables, then emit
the brackets in dict order with sorted entries. -/
def format_as_typescript (aData bData : List StandardRecord) :
    Option (List Char) :=
  match buildGrouped aData bData with
  | none => none
  | some d =>
    match d.mapM (fun p => bracketBlock p.1 p.2) with
    | none => none
    | some blocks =>
      some ("export const standards = \x7b\n".data ++ blocks.flatten ++
        "\x7d;\n".data)

/-- The whole text pipeline of the __main__ block: scrape both extracted
texts, then format. -/
def runPipeline (rawA rawB : List Char) : Option (List Char) :=
  format_as_typescript (scrape_weightlifting_standards rawA)
    (scrape_weightlifting_standards rawB)

/- ---------- association-list lemmas for the grouping dicts ---------- -/

lemma dGet_cons {α : Type} (p : List Char × α) (d : List (List Char × α))
    (k : List Char) :
    dGet (p :: d) k = if p.1 == k then some p.2 else dGet d k := by
  by_cases h : p.1 == k
  · simp [dGet, List.find?_cons_of_pos, h]
  · simp only [Bool.not_eq_true] at h
    simp [dGet, List.find?_cons_of_neg, h]

lemma dGet_dSet_self {α : Type} (d : List (List Char × α)) (k : List Char)
    (v : α) : dGet (dSet d k v) k = (dGet d k).map (fun _ => v) := by
  induction d with
  | nil => rfl
  | cons p d ih =>
    by_cases h : p.1 == k
    · simp only [dSet, List.map_cons, if_pos h]
      rw [dGet_cons, dGet_cons, if_pos h, if_pos h]
      rfl
    · simp only [dSet, List.map_cons, if_neg h]
      rw [dGet_cons, dGet_cons, if_neg h, if_neg h]
      exact ih

lemma dGet_dSet_ne {α : Type} (d : List (List Char × α)) (k k' : List Char)
    (v : α) (h : k' ≠ k) : dGet (dSet d k v) k' = dGet d k' := by
  induction d with
  | nil => rfl
  | cons p d ih =>
    by_cases hp : p.1 == k
    · have hk : p.1 = k := by simpa using hp
      have hne : ¬(p.1 == k') := by
        simp only [beq_iff_eq]
        rw [hk]
        exact fun he => h he.symm
      simp only [dSet, List.map_cons, if_pos hp]
      rw [dGet_cons, dGet_cons]
      simp only [hne]
      rw [if_neg (by simpa using hne), if_neg (by simpa using hne)]
      exact ih
    · simp only [dSet, List.map_cons, if_neg hp]
      rw [dGet_cons, dGet_cons]
      by_cases hq : p.1 == k'
      · rw [if_pos hq, if_pos hq]
      · rw [if_neg hq, if_neg hq]
        exact ih

lemma alContains_iff (al : InnerTable) (k : List Char) :
    alContains al k = (dGet al k).isSome := by
  induction al with
  | nil => rfl
  | cons p al ih =>
    rw [alContains, List.any_cons, dGet_cons]
    by_cases h : p.1 == k
    · simp [h]
    · simp only [h, Bool.false_or, if_neg h]
      exact ih

lemma dGet_append_new (al : InnerTable) (k : List Char) (v : Leaf)
    (h : dGet al k = none) : dGet (al ++ [(k, v)]) k = some v := by
  induction al with
  | nil => simp [dGet, List.find?]
  | cons p al ih =>
    rw [List.cons_append, dGet_cons]
    rw [dGet_cons] at h
    by_cases hp : p.1 == k
    · rw [if_pos hp] at h; cases h
    · rw [if_neg hp] at h ⊢
      exact ih h

lemma dGet_append_other (al : InnerTable) (k k' : List Char) (v : Leaf)
    (h : k' ≠ k) : dGet (al ++ [(k, v)]) k' = dGet al k' := by
  induction al with
  | nil =>
    simp only [List.nil_append]
    rw [dGet_cons]
    have : ¬((k, v).1 == k') := by
      simp only [beq_iff_eq]
      exact fun he => h he.symm
    rw [if_neg this]
  | cons p al ih =>
    rw [List.cons_append, dGet_cons, dGet_cons]
    by_cases hp : p.1 == k'
    · rw [if_pos hp, if_pos hp]
    · rw [if_neg hp, if_neg hp]
      exact ih

lemma dGet_updateB_self (al : InnerTable) (k : List Char) (n : Int) :
    dGet (al.map (fun p => if p.1 == k then (p.1, Leaf.mk p.2.a n) else p)) k =
      (dGet al k).map (fun v => Leaf.mk v.a n) := by
  induction al with
  | nil => rfl
  | cons p al ih =>
    simp only [List.map_cons]
    by_cases hp : p.1 == k
    · rw [if_pos hp, dGet_cons, dGet_cons, if_pos hp, if_pos hp]
      rfl
    · rw [if_neg hp, dGet_cons, dGet_cons, if_neg hp, if_neg hp]
      exact ih

lemma dGet_updateB_ne (al : InnerTable) (k k' : List Char) (n : Int)
    (h : k' ≠ k) :
    dGet (al.map (fun p => if p.1 == k then (p.1, Leaf.mk p.2.a n) else p)) k' =
      dGet al k' := by
  induction al with
  | nil => rfl
  | cons p al ih =>
    simp only [List.map_cons]
    by_cases hp : p.1 == k
    · have hk : p.1 = k := by simpa using hp
      have hne : ¬(p.1 == k') := by
        simp only [beq_iff_eq]
        rw [hk]
        exact fun he => h he.symm
      rw [if_pos hp, dGet_cons, dGet_cons]
      simp only []
      rw [if_neg hne, if_neg hne]
      exact ih
    · rw [if_neg hp, dGet_cons, dGet_cons]
      by_cases hq : p.1 == k'
      · rw [if_pos hq, if_pos hq]
      · rw [if_neg hq, if_neg hq]
        exact ih

/-- Does a record map to the outer key w and inner key wc? -/
def recMatches (w wc : List Char) (e : StandardRecord) : Bool :=
  (firstWord e.ageGroup == some w) && (gwcOf e == wc)

/-- The parsed integer standard of a record (meaningful when parsing
succeeds). -/
def stdOf (e : StandardRecord) : Int := (pyParseStandard e.weightStandard).getD 0

lemma foldA_char (l : List StandardRecord) :
    ∀ (d0 dN : AgeTable) (w wc : List Char) (al0 : InnerTable),
    List.foldlM procA d0 l = some dN → dGet d0 w = some al0 →
    ∃ alN, dGet dN w = some alN ∧
      dGet alN wc =
        (match dGet al0 wc with
         | some v => some v
         | none =>
           match l.find? (recMatches w wc) with
           | none => none
           | some e => some (Leaf.mk (stdOf e) 0)) := by
  induction l with
  | nil =>
    intro d0 dN w wc al0 h hw0
    have hdn : d0 = dN := by simpa [List.foldlM] using h
    subst hdn
    refine ⟨al0, hw0, ?_⟩
    rcases hv : dGet al0 wc with _ | v <;> simp [hv, List.find?]
  | cons e l ih =>
    intro d0 dN w wc al0 h hw0
    rw [List.foldlM_cons] at h
    rcases hp : procA d0 e with _ | d1
    · rw [hp] at h; simp at h
    · rw [hp] at h
      simp only [Option.bind_eq_bind, Option.some_bind] at h
      unfold procA at hp
      rcases hw1 : firstWord e.ageGroup with _ | we
      · simp only [hw1] at hp
        cases hp
      simp only [hw1] at hp
      rcases hn : pyParseStandard e.weightStandard with _ | n
      · simp only [hn] at hp
        cases hp
      simp only [hn] at hp
      rcases hale : dGet d0 we with _ | ale
      · simp only [hale] at hp
        cases hp
      simp only [hale] at hp
      by_cases hm : recMatches w wc e = true
      · -- the record maps to (w, wc)
        have hmm := hm
        unfold recMatches at hmm
        rw [hw1] at hmm
        rw [Bool.and_eq_true] at hmm
        obtain ⟨hmw, hmwc⟩ := hmm
        have hwe : we = w := by simpa using hmw
        have hgwc : gwcOf e = wc := by simpa using hmwc
        subst hwe
        rw [hw0] at hale
        injection hale with hale2
        subst hale2
        rw [hgwc] at hp
        by_cases hcont : alContains al0 wc = true
        · rw [if_pos hcont] at hp
          injection hp with hd1
          subst hd1
          have hsome : (dGet al0 wc).isSome := by rw [← alContains_iff]; exact hcont
          rcases hv : dGet al0 wc with _ | v
          · rw [hv] at hsome; cases hsome
          · obtain ⟨alN, hN1, hN2⟩ := ih d0 dN we wc al0 h hw0
            refine ⟨alN, hN1, ?_⟩
            rw [hN2]
            simp [hv]
        · rw [if_neg hcont] at hp
          injection hp with hd1
          have hv : dGet al0 wc = none := by
            rw [alContains_iff] at hcont
            rcases hx : dGet al0 wc with _ | v
            · rfl
            · rw [hx] at hcont; simp at hcont
          have hnew : dGet (dSet d0 we (al0 ++ [(wc, Leaf.mk n 0)])) we =
              some (al0 ++ [(wc, Leaf.mk n 0)]) := by
            rw [dGet_dSet_self, hw0]
            rfl
          rw [← hd1] at h
          obtain ⟨alN, hN1, hN2⟩ :=
            ih (dSet d0 we (al0 ++ [(wc, Leaf.mk n 0)])) dN we wc
              (al0 ++ [(wc, Leaf.mk n 0)]) h hnew
          refine ⟨alN, hN1, ?_⟩
          rw [hN2, dGet_append_new _ _ _ hv]
          have hstd : stdOf e = n := by simp [stdOf, hn]
          simp [hv, List.find?_cons_of_pos _ hm, hstd]
      · -- the record maps elsewhere: the (w, wc) lookup is unchanged
        have hm2 : recMatches w wc e = false := by
          rcases hb : recMatches w wc e with _ | _
          · rfl
          · exact absurd hb hm
        have hpres : ∃ al0', dGet d1 w = some al0' ∧ dGet al0' wc = dGet al0 wc := by
          by_cases hcont : alContains ale (gwcOf e) = true
          · rw [if_pos hcont] at hp
            injection hp with hd1
            subst hd1
            exact ⟨al0, hw0, rfl⟩
          · rw [if_neg hcont] at hp
            injection hp with hd1
            by_cases hwe : we = w
            · subst hwe
              rw [hw0] at hale
              injection hale with hale2
              subst hale2
              have hgwc : gwcOf e ≠ wc := by
                intro hcontra
                unfold recMatches at hm2
                rw [hw1, hcontra] at hm2
                simp at hm2
              refine ⟨al0 ++ [(gwcOf e, Leaf.mk n 0)], ?_, ?_⟩
              · rw [← hd1, dGet_dSet_self, hw0]
                rfl
              · exact dGet_append_other _ _ _ _ (fun hx => hgwc hx.symm)
            · refine ⟨al0, ?_, rfl⟩
              rw [← hd1, dGet_dSet_ne _ _ _ _ (fun hx => hwe hx.symm)]
              exact hw0
        obtain ⟨al0', hd1w, hal0'⟩ := hpres
        obtain ⟨alN, hN1, hN2⟩ := ih d1 dN w wc al0' h hd1w
        refine ⟨alN, hN1, ?_⟩
        rw [hN2, hal0', List.find?_cons_of_neg _ (by simp [hm2])]

lemma foldB_char (l : List StandardRecord) :
    ∀ (d0 dN : AgeTable) (w wc : List Char) (al0 : InnerTable),
    List.foldlM procB d0 l = some dN → dGet d0 w = some al0 →
    ∃ alN, dGet dN w = some alN ∧
      dGet alN wc =
        (match l.reverse.find? (recMatches w wc) with
         | none => dGet al0 wc
         | some e =>
           match dGet al0 wc with
           | some v => some (Leaf.mk v.a (stdOf e))
           | none => some (Leaf.mk 0 (stdOf e))) := by
  induction l with
  | nil =>
    intro d0 dN w wc al0 h hw0
    have hdn : d0 = dN := by simpa [List.foldlM] using h
    subst hdn
    exact ⟨al0, hw0, by simp [List.find?]⟩
  | cons e l ih =>
    intro d0 dN w wc al0 h hw0
    rw [List.foldlM_cons] at h
    rcases hp : procB d0 e with _ | d1
    · rw [hp] at h; simp at h
    · rw [hp] at h
      simp only [Option.bind_eq_bind, Option.some_bind] at h
      unfold procB at hp
      rcases hw1 : firstWord e.ageGroup with _ | we
      · simp only [hw1] at hp
        cases hp
      simp only [hw1] at hp
      rcases hn : pyParseStandard e.weightStandard with _ | n
      · simp only [hn] at hp
        cases hp
      simp only [hn] at hp
      rcases hale : dGet d0 we with _ | ale
      · simp only [hale] at hp
        cases hp
      simp only [hale] at hp
      have hrw : (e :: l).reverse.find? (recMatches w wc) =
          ((l.reverse.find? (recMatches w wc)).or
            (List.find? (recMatches w wc) [e])) := by
        rw [List.reverse_cons, List.find?_append]
      by_cases hm : recMatches w wc e = true
      · have hmm := hm
        unfold recMatches at hmm
        rw [hw1] at hmm
        rw [Bool.and_eq_true] at hmm
        obtain ⟨hmw, hmwc⟩ := hmm
        have hwe : we = w := by simpa using hmw
        have hgwc : gwcOf e = wc := by simpa using hmwc
        subst hwe
        rw [hw0] at hale
        injection hale with hale2
        subst hale2
        rw [hgwc] at hp
        have hfe : List.find? (recMatches we wc) [e] = some e :=
          List.find?_cons_of_pos _ hm
        have hstd : stdOf e = n := by simp [stdOf, hn]
        by_cases hcont : alContains al0 wc = true
        · rw [if_pos hcont] at hp
          injection hp with hd1
          have hsome : (dGet al0 wc).isSome := by rw [← alContains_iff]; exact hcont
          rcases hv : dGet al0 wc with _ | v
          · rw [hv] at hsome; cases hsome
          have hnew : dGet (dSet d0 we
              (al0.map (fun p => if p.1 == wc then (p.1, Leaf.mk p.2.a n) else p))) we =
              some (al0.map (fun p => if p.1 == wc then (p.1, Leaf.mk p.2.a n) else p)) := by
            rw [dGet_dSet_self, hw0]
            rfl
          rw [← hd1] at h
          obtain ⟨alN, hN1, hN2⟩ := ih _ dN we wc _ h hnew
          refine ⟨alN, hN1, ?_⟩
          rw [hN2, dGet_updateB_self, hv, hrw, hfe]
          rcases hlr : l.reverse.find? (recMatches we wc) with _ | e2
          · simp [hv, hstd]
          · simp [hv]
        · rw [if_neg hcont] at hp
          injection hp with hd1
          have hv : dGet al0 wc = none := by
            rw [alContains_iff] at hcont
            rcases hx : dGet al0 wc with _ | v
            · rfl
            · rw [hx] at hcont; simp at hcont
          have hnew : dGet (dSet d0 we (al0 ++ [(wc, Leaf.mk 0 n)])) we =
              some (al0 ++ [(wc, Leaf.mk 0 n)]) := by
            rw [dGet_dSet_self, hw0]
            rfl
          rw [← hd1] at h
          obtain ⟨alN, hN1, hN2⟩ := ih _ dN we wc _ h hnew
          refine ⟨alN, hN1, ?_⟩
          rw [hN2, dGet_append_new _ _ _ hv, hrw, hfe]
          rcases hlr : l.reverse.find? (recMatches we wc) with _ | e2
          · simp [hv, hstd]
          · simp [hv]
      · have hm2 : recMatches w wc e = false := by
          rcases hb : recMatches w wc e with _ | _
          · rfl
          · exact absurd hb hm
        have hfe : List.find? (recMatches w wc) [e] = none :=
          List.find?_cons_of_neg _ (by simp [hm2])
        have hpres : ∃ al0', dGet d1 w = some al0' ∧ dGet al0' wc = dGet al0 wc := by
          by_cases hcont : alContains ale (gwcOf e) = true
          · rw [if_pos hcont] at hp
            injection hp with hd1
            by_cases hwe : we = w
            · subst hwe
              rw [hw0] at hale
              injection hale with hale2
              subst hale2
              have hgwc : gwcOf e ≠ wc := by
                intro hcontra
                unfold recMatches at hm2
                rw [hw1, hcontra] at hm2
                simp at hm2
              refine ⟨al0.map (fun p => if p.1 == gwcOf e then (p.1, Leaf.mk p.2.a n) else p),
                ?_, ?_⟩
              · rw [← hd1, dGet_dSet_self, hw0]
                rfl
              · exact dGet_updateB_ne _ _ _ _ (fun hx => hgwc hx.symm)
            · refine ⟨al0, ?_, rfl⟩
              rw [← hd1, dGet_dSet_ne _ _ _ _ (fun hx => hwe hx.symm)]
              exact hw0
          · rw [if_neg hcont] at hp
            injection hp with hd1
            by_cases hwe : we = w
            · subst hwe
              rw [hw0] at hale
              injection hale with hale2
              subst hale2
              have hgwc : gwcOf e ≠ wc := by
                intro hcontra
                unfold recMatches at hm2
                rw [hw1, hcontra] at hm2
                simp at hm2
              refine ⟨al0 ++ [(gwcOf e, Leaf.mk 0 n)], ?_, ?_⟩
              · rw [← hd1, dGet_dSet_self, hw0]
                rfl
              · exact dGet_append_other _ _ _ _ (fun hx => hgwc hx.symm)
            · refine ⟨al0, ?_, rfl⟩
              rw [← hd1, dGet_dSet_ne _ _ _ _ (fun hx => hwe hx.symm)]
              exact hw0
        obtain ⟨al0', hd1w, hal0'⟩ := hpres
        obtain ⟨alN, hN1, hN2⟩ := ih d1 dN w wc al0' h hd1w
        refine ⟨alN, hN1, ?_⟩
        rw [hN2, hal0', hrw, hfe, Option.or_none]

lemma buildGrouped_char (aData bData : List StandardRecord) (d : AgeTable)
    (w wc : List Char)
    (hb : buildGrouped aData bData = some d)
    (hw : dGet emptyGrouped w = some ([] : InnerTable)) :
    ∃ al, dGet d w = some al ∧
      dGet al wc =
        (match aData.find? (recMatches w wc),
               bData.reverse.find? (recMatches w wc) with
         | none, none => none
         | some ea, none => some (Leaf.mk (stdOf ea) 0)
         | none, some eb => some (Leaf.mk 0 (stdOf eb))
         | some ea, some eb => some (Leaf.mk (stdOf ea) (stdOf eb))) := by
  unfold buildGrouped at hb
  rcases ha : List.foldlM procA emptyGrouped aData with _ | dA
  · rw [ha] at hb; cases hb
  rw [ha] at hb
  obtain ⟨alA, hA1, hA2⟩ := foldA_char aData emptyGrouped dA w wc [] ha hw
  obtain ⟨alN, hN1, hN2⟩ := foldB_char bData dA d w wc alA hb hA1
  refine ⟨alN, hN1, ?_⟩
  rw [hN2, hA2]
  have hnil : dGet ([] : InnerTable) wc = none := rfl
  rw [hnil]
  rcases hfa : aData.find? (recMatches w wc) with _ | ea <;>
    rcases hfb : bData.reverse.find? (recMatches w wc) with _ | eb <;> simp

/-- C3: in the merged table, a key found in the A table and not in the B
table carries the (first) A standard with b defaulted to 0, a key found
only in the B table carries a defaulted to 0 with the (last) B standard,
and a key found in both carries both parsed standards (the spec's 120/110
instance is the witness below). -/
theorem c3_merge_structure (aData bData : List StandardRecord) (d : AgeTable)
    (w wc : List Char)
    (hb : buildGrouped aData bData = some d)
    (hw : dGet emptyGrouped w = some ([] : InnerTable)) :
    ∃ al, dGet d w = some al ∧
      dGet al wc =
        (match aData.find? (recMatches w wc),
               bData.reverse.find? (recMatches w wc) with
         | none, none => none
         | some ea, none => some (Leaf.mk (stdOf ea) 0)
         | none, some eb => some (Leaf.mk 0 (stdOf eb))
         | some ea, some eb => some (Leaf.mk (stdOf ea) (stdOf eb))) :=
  buildGrouped_char aData bData d w wc hb hw

/-- Witness for C3: the spec's merge test, with one key in both tables
(a 120, b 110), one A-only key and one B-only key. -/
theorem c3_witness :
    (∃ al, dGet
        [("Youth".data, ([] : InnerTable)), ("Junior".data, ([] : InnerTable)),
         ("Senior".data,
          [("Male 60kg".data, Leaf.mk 120 110), ("Male 55kg".data, Leaf.mk 200 0),
           ("Male 67kg".data, Leaf.mk 0 90)])]
        ("Senior".data) = some al ∧
      dGet al ("Male 60kg".data) = some (Leaf.mk 120 110)) ∧
    (∃ al, dGet
        [("Youth".data, ([] : InnerTable)), ("Junior".data, ([] : InnerTable)),
         ("Senior".data,
          [("Male 60kg".data, Leaf.mk 120 110), ("Male 55kg".data, Leaf.mk 200 0),
           ("Male 67kg".data, Leaf.mk 0 90)])]
        ("Senior".data) = some al ∧
      dGet al ("Male 55kg".data) = some (Leaf.mk 200 0)) ∧
    (∃ al, dGet
        [("Youth".data, ([] : InnerTable)), ("Junior".data, ([] : InnerTable)),
         ("Senior".data,
          [("Male 60kg".data, Leaf.mk 120 110), ("Male 55kg".data, Leaf.mk 200 0),
           ("Male 67kg".data, Leaf.mk 0 90)])]
        ("Senior".data) = some al ∧
      dGet al ("Male 67kg".data) = some (Leaf.mk 0 90)) :=
  ⟨c3_merge_structure
      [⟨"Senior Men".data, "60kg".data, "120".data⟩,
       ⟨"Senior Men".data, "55kg".data, "200".data⟩]
      [⟨"Senior Men".data, "60kg".data, "110".data⟩,
       ⟨"Senior Men".data, "67kg".data, "90".data⟩]
      _ ("Senior".data) ("Male 60kg".data) (by decide) (by decide),
   c3_merge_structure
      [⟨"Senior Men".data, "60kg".data, "120".data⟩,
       ⟨"Senior Men".data, "55kg".data, "200".data⟩]
      [⟨"Senior Men".data, "60kg".data, "110".data⟩,
       ⟨"Senior Men".data, "67kg".data, "90".data⟩]
      _ ("Senior".data) ("Male 55kg".data) (by decide) (by decide),
   c3_merge_structure
      [⟨"Senior Men".data, "60kg".data, "120".data⟩,
       ⟨"Senior Men".data, "55kg".data, "200".data⟩]
      [⟨"Senior Men".data, "60kg".data, "110".data⟩,
       ⟨"Senior Men".data, "67kg".data, "90".data⟩]
      _ ("Senior".data) ("Male 67kg".data) (by decide) (by decide)⟩

/-- C9: when two A records map to the same key, the first one's standard
is kept and the later one is ignored; when two B records map to the same
key, the last one's standard overwrites the b field. -/
theorem c9_duplicate_resolution (e1 e2 f1 f2 : StandardRecord)
    (d : AgeTable) (w wc : List Char)
    (h1 : recMatches w wc e1 = true) (h4 : recMatches w wc f2 = true)
    (hb : buildGrouped [e1, e2] [f1, f2] = some d)
    (hw : dGet emptyGrouped w = some ([] : InnerTable)) :
    ∃ al, dGet d w = some al ∧
      dGet al wc = some (Leaf.mk (stdOf e1) (stdOf f2)) := by
  obtain ⟨al, hA, hV⟩ := buildGrouped_char [e1, e2] [f1, f2] d w wc hb hw
  refine ⟨al, hA, ?_⟩
  rw [hV, List.find?_cons_of_pos _ h1]
  have hrev : ([f1, f2] : List StandardRecord).reverse = [f2, f1] := rfl
  rw [hrev, List.find?_cons_of_pos _ h4]

/-- Witness for C9: duplicated A records 120 then 125 and duplicated B
records 105 then 110 on the same key merge to a 120 (first A) and
b 110 (last B). -/
theorem c9_witness :
    ∃ al, dGet
        [("Youth".data, ([] : InnerTable)), ("Junior".data, ([] : InnerTable)),
         ("Senior".data, [("Male 60kg".data, Leaf.mk 120 110)])]
        ("Senior".data) = some al ∧
      dGet al ("Male 60kg".data) = some (Leaf.mk 120 110) :=
  c9_duplicate_resolution
    ⟨"Senior Men".data, "60kg".data, "120".data⟩
    ⟨"Senior Men".data, "60kg".data, "125".data⟩
    ⟨"Senior Men".data, "60kg".data, "105".data⟩
    ⟨"Senior Men".data, "60kg".data, "110".data⟩
    _ ("Senior".data) ("Male 60kg".data)
    (by decide) (by decide) (by decide) (by decide)

/- ---------- the sort order is a total preorder ---------- -/

lemma charEqOfNatEq {a b : Char} (h : a.toNat = b.toNat) : a = b := by
  exact Char.ext (UInt32.ext h)

lemma listCharLt_trans : ∀ (a b c : List Char),
    listCharLt a b = true → listCharLt b c = true → listCharLt a c = true := by
  intro a
  induction a with
  | nil =>
    intro b c hab hbc
    match b, c with
    | [], _ => simp [listCharLt] at hab
    | _ :: _, [] => simp [listCharLt] at hbc
    | _ :: _, _ :: _ => rfl
  | cons x a ih =>
    intro b c hab hbc
    match b, c with
    | [], _ => simp [listCharLt] at hab
    | _ :: _, [] => simp [listCharLt] at hbc
    | y :: b, z :: c =>
      simp only [listCharLt] at hab hbc ⊢
      by_cases hxy : x.toNat < y.toNat
      · by_cases hyz : y.toNat < z.toNat
        · rw [if_pos (Nat.lt_trans hxy hyz)]
        · rw [if_neg hyz] at hbc
          by_cases hzy : z.toNat < y.toNat
          · rw [if_pos hzy] at hbc; cases hbc
          · rw [if_neg hzy] at hbc
            have : y.toNat = z.toNat := by omega
            rw [if_pos (by omega : x.toNat < z.toNat)]
      · rw [if_neg hxy] at hab
        by_cases hyx : y.toNat < x.toNat
        · rw [if_pos hyx] at hab; cases hab
        · rw [if_neg hyx] at hab
          by_cases hyz : y.toNat < z.toNat
          · rw [if_pos (by omega : x.toNat < z.toNat)]
          · rw [if_neg hyz] at hbc
            by_cases hzy : z.toNat < y.toNat
            · rw [if_pos hzy] at hbc; cases hbc
            · rw [if_neg hzy] at hbc
              rw [if_neg (by omega : ¬x.toNat < z.toNat),
                if_neg (by omega : ¬z.toNat < x.toNat)]
              exact ih b c hab hbc

lemma listCharLt_conn : ∀ (a b : List Char),
    listCharLt a b = false → listCharLt b a = false → a = b := by
  intro a
  induction a with
  | nil =>
    intro b hab _
    match b with
    | [] => rfl
    | _ :: _ => simp [listCharLt] at hab
  | cons x a ih =>
    intro b hab hba
    match b with
    | [] => simp [listCharLt] at hba
    | y :: b =>
      simp only [listCharLt] at hab hba
      by_cases hxy : x.toNat < y.toNat
      · rw [if_pos hxy] at hab; cases hab
      · rw [if_neg hxy] at hab
        by_cases hyx : y.toNat < x.toNat
        · rw [if_pos hyx] at hba; cases hba
        · rw [if_neg hyx] at hab
          rw [if_neg hyx, if_neg hxy] at hba
          have hxyeq : x = y := charEqOfNatEq (by omega)
          rw [hxyeq, ih b hab hba]

lemma wkeyLe_trans : ∀ (u v w : WKey),
    wkeyLe u v = true → wkeyLe v w = true → wkeyLe u w = true := by
  intro u v w huv hvw
  match u, v, w with
  | WKey.inf, WKey.inf, _ => exact hvw
  | WKey.inf, WKey.fin _ _, _ => simp [wkeyLe] at huv
  | WKey.fin _ _, _, WKey.inf => rfl
  | WKey.fin _ _, WKey.inf, WKey.fin _ _ => simp [wkeyLe] at hvw
  | WKey.fin n1 k1, WKey.fin n2 k2, WKey.fin n3 k3 =>
    simp only [wkeyLe, decide_eq_true_eq] at huv hvw ⊢
    have hp1 : (0 : Int) < 10 ^ k1 := pow_pos (by norm_num) k1
    have hp2 : (0 : Int) < 10 ^ k2 := pow_pos (by norm_num) k2
    have hp3 : (0 : Int) < 10 ^ k3 := pow_pos (by norm_num) k3
    have h1 := mul_le_mul_of_nonneg_right huv (le_of_lt hp3)
    have h2 := mul_le_mul_of_nonneg_right hvw (le_of_lt hp1)
    have hchain : n1 * 10 ^ k3 * 10 ^ k2 ≤ n3 * 10 ^ k1 * 10 ^ k2 := by
      nlinarith [h1, h2]
    exact le_of_mul_le_mul_right hchain hp2

lemma wkeyLe_total : ∀ (u v : WKey), wkeyLe u v = true ∨ wkeyLe v u = true := by
  intro u v
  match u, v with
  | WKey.inf, WKey.inf => exact Or.inl rfl
  | WKey.inf, WKey.fin _ _ => exact Or.inr rfl
  | WKey.fin _ _, WKey.inf => exact Or.inl rfl
  | WKey.fin n1 k1, WKey.fin n2 k2 =>
    simp only [wkeyLe, decide_eq_true_eq]
    exact Int.le_total _ _

lemma sortKeyLe_trans (k1 k2 k3 : List Char × WKey)
    (h12 : sortKeyLe k1 k2 = true) (h23 : sortKeyLe k2 k3 = true) :
    sortKeyLe k1 k3 = true := by
  unfold sortKeyLe at h12 h23 ⊢
  rw [Bool.or_eq_true] at h12 h23
  rcases h12 with h12 | h12 <;> rcases h23 with h23 | h23
  · rw [Bool.or_eq_true]
    exact Or.inl (listCharLt_trans _ _ _ h12 h23)
  · rw [Bool.and_eq_true] at h23
    have he : k2.1 = k3.1 := by simpa using h23.1
    rw [Bool.or_eq_true]
    exact Or.inl (he ▸ h12)
  · rw [Bool.and_eq_true] at h12
    have he : k1.1 = k2.1 := by simpa using h12.1
    rw [Bool.or_eq_true]
    exact Or.inl (he ▸ h23)
  · rw [Bool.and_eq_true] at h12 h23
    have he1 : k1.1 = k2.1 := by simpa using h12.1
    have he2 : k2.1 = k3.1 := by simpa using h23.1
    rw [Bool.or_eq_true, Bool.and_eq_true]
    exact Or.inr ⟨by simp [he1, he2], wkeyLe_trans _ _ _ h12.2 h23.2⟩

lemma sortKeyLe_total (k1 k2 : List Char × WKey) :
    sortKeyLe k1 k2 = true ∨ sortKeyLe k2 k1 = true := by
  unfold sortKeyLe
  by_cases h12 : listCharLt k1.1 k2.1 = true
  · exact Or.inl (by rw [Bool.or_eq_true]; exact Or.inl h12)
  · by_cases h21 : listCharLt k2.1 k1.1 = true
    · exact Or.inr (by rw [Bool.or_eq_true]; exact Or.inl h21)
    · have he : k1.1 = k2.1 :=
        listCharLt_conn _ _ (by simpa using h12) (by simpa using h21)
      rcases wkeyLe_total k1.2 k2.2 with hw | hw
      · refine Or.inl ?_
        rw [Bool.or_eq_true, Bool.and_eq_true]
        exact Or.inr ⟨by simp [he], hw⟩
      · refine Or.inr ?_
        rw [Bool.or_eq_true, Bool.and_eq_true]
        exact Or.inr ⟨by simp [he], hw⟩

instance : IsTrans ((List Char × Leaf) × (List Char × WKey)) keyRel :=
  ⟨fun _ _ _ h1 h2 => sortKeyLe_trans _ _ _ h1 h2⟩

instance : IsTotal ((List Char × Leaf) × (List Char × WKey)) keyRel :=
  ⟨fun x y => sortKeyLe_total x.2 y.2⟩

lemma decorated_inv (al : InnerTable)
    (ds : List ((List Char × Leaf) × (List Char × WKey)))
    (h : decorated al = some ds) :
    ∀ x ∈ ds, weight_class_sort_key x.1.1 = some x.2 := by
  induction al generalizing ds with
  | nil =>
    unfold decorated at h
    simp only [List.mapM_nil] at h
    injection h with h2
    subst h2
    simp
  | cons p al ih =>
    unfold decorated at h
    rw [List.mapM_cons] at h
    rcases hk : weight_class_sort_key p.1 with _ | k
    · simp only [hk, Option.map_none, Option.bind_eq_bind, Option.none_bind] at h
      cases h
    · simp only [hk, Option.map_some, Option.bind_eq_bind, Option.some_bind] at h
      rcases hrest : List.mapM
          (fun e => (weight_class_sort_key e.1).map (fun k => (e, k))) al
          with _ | rest
      · rw [hrest] at h
        simp at h
      · rw [hrest] at h
        simp only [Option.some_bind, Option.pure_def] at h
        injection h with h2
        subst h2
        intro x hx
        rcases List.mem_cons.1 hx with rfl | hx
        · exact hk
        · exact ih rest (by unfold decorated; exact hrest) x hx

/-- C4: within each bracket the emitted entries are sorted by the source's
sort key, that is by gender string first (lexicographically ascending)
and by the numeric weight second (ascending, with + classes compared as
infinity after every finite class of the same gender); the spec's
three-element example is sorted accordingly. -/
theorem c4_sorted_output :
    (∀ (al out : InnerTable), sortInner al = some out →
      List.Sorted (fun x y : List Char × Leaf =>
        ∀ kx ky, weight_class_sort_key x.1 = some kx →
          weight_class_sort_key y.1 = some ky → sortKeyLe kx ky = true) out) ∧
    sortInner
      [("Female 55kg".data, Leaf.mk 1 2), ("Female +65kg".data, Leaf.mk 3 4),
       ("Female 50kg".data, Leaf.mk 5 6)] =
      some [("Female 50kg".data, Leaf.mk 5 6), ("Female 55kg".data, Leaf.mk 1 2),
       ("Female +65kg".data, Leaf.mk 3 4)] := by
  constructor
  · intro al out h
    unfold sortInner at h
    rcases hd : decorated al with _ | ds
    · rw [hd] at h; cases h
    · rw [hd] at h
      injection h with hout
      subst hout
      have hinv := decorated_inv al ds hd
      have hsorted : List.Pairwise keyRel (List.insertionSort keyRel ds) :=
        List.sorted_insertionSort keyRel ds
      have hmem : ∀ x ∈ List.insertionSort keyRel ds,
          weight_class_sort_key x.1.1 = some x.2 :=
        fun x hx => hinv x ((List.perm_insertionSort keyRel ds).subset hx)
      have hstrong : List.Pairwise
          (fun x y : (List Char × Leaf) × (List Char × WKey) =>
            ∀ kx ky, weight_class_sort_key x.1.1 = some kx →
              weight_class_sort_key y.1.1 = some ky → sortKeyLe kx ky = true)
          (List.insertionSort keyRel ds) := by
        refine List.Pairwise.imp_of_mem ?_ hsorted
        intro x y hx hy hr kx ky hkx hky
        rw [hmem x hx] at hkx
        rw [hmem y hy] at hky
        injection hkx with hkx
        injection hky with hky
        subst hkx
        subst hky
        exact hr
      exact List.Pairwise.map _ (fun x y hxy => hxy) hstrong
  · decide

/-- Witness for C4 at the spec's example list. -/
theorem c4_witness :
    List.Sorted (fun x y : List Char × Leaf =>
      ∀ kx ky, weight_class_sort_key x.1 = some kx →
        weight_class_sort_key y.1 = some ky → sortKeyLe kx ky = true)
      [("Female 50kg".data, Leaf.mk 5 6), ("Female 55kg".data, Leaf.mk 1 2),
       ("Female +65kg".data, Leaf.mk 3 4)] :=
  c4_sorted_output.1
    [("Female 55kg".data, Leaf.mk 1 2), ("Female +65kg".data, Leaf.mk 3 4),
     ("Female 50kg".data, Leaf.mk 5 6)]
    [("Female 50kg".data, Leaf.mk 5 6), ("Female 55kg".data, Leaf.mk 1 2),
     ("Female +65kg".data, Leaf.mk 3 4)]
    c4_sorted_output.2

/-- C7: a record table containing an unparseable weight standard (abc) and
one containing a weight class whose numeric part is unparseable during
sorting (??) each make the merger/formatter fail with an unrecovered
format error (modelled by the none result) instead of producing output. -/
theorem c7_unparseable_aborts :
    format_as_typescript
        [⟨"Senior Men".data, "60kg".data, "abc".data⟩] [] = none ∧
    format_as_typescript
        [⟨"Senior Men".data, "??".data, "120".data⟩] [] = none := by
  decide

/-- C8: the text pipeline (clean, split, extract, merge, serialize) is a
pure function of the two extracted PDF texts, so two runs on byte-identical
inputs emit byte-identical output text. -/
theorem c8_pipeline_deterministic (rawA rawB rawA2 rawB2 : List Char)
    (ha : rawA = rawA2) (hb : rawB = rawB2) :
    runPipeline rawA rawB = runPipeline rawA2 rawB2 := by
  rw [ha, hb]

/-- Witness for C8 at concrete inputs. -/
theorem c8_witness :
    runPipeline ("Senior Men: Weight class: 60kg Total: 120".data) ("x".data) =
      runPipeline ("Senior Men: Weight class: 60kg Total: 120".data) ("x".data) :=
  c8_pipeline_deterministic _ _ _ _ rfl rfl
